import Mathlib

/-!
PMacc compile-time primitives: `AllCombinations` and `MapTuple`.

A shallow embedding of
* `include/pmacc/meta/AllCombinations.hpp` (the Cartesian product of N candidate sequences), and
* `include/pmacc/math/MapTuple.hpp` (a tuple of slots addressed by key or by index),
followed by theorems about the embedded definitions.

Type-level sequences (`bmpl::vector`) are Lean lists, a template typedef is a `let` or a
definition of the same name, and an ill-formed instantiation is `none`.
-/

namespace pmacc

/-! ## Data model of `AllCombinations` -/

/-- Template argument handed to `MakeSeq`: either a single type that is no MPL sequence
(`bare`, for instance `bmpl::integral_c<uint32_t, 5>`) or an MPL sequence of elements (`seq`). -/
inductive Entry (β : Type) where
  | bare (v : β)
  | seq (cs : List β)
deriving DecidableEq, Repr

namespace bmpl

/-- Boost.MPL `bmpl::empty<T>`. For a sequence it tells whether the sequence has no element.
A type that is no sequence lies outside the documented domain of `bmpl::empty`; what the
library then computes, for a type with a nested `tag` such as the integral constant
`bmpl::integral_c<uint32_t, 5>`, is the primary `empty_impl`, which compares
`begin<T>::type` with `end<T>::type`. Both are `void_` for a non-sequence (this is how
`is_sequence` recognises one), hence the answer is `true`. -/
def empty {β : Type} : Entry β → Bool
  | Entry.seq cs => cs.isEmpty
  | Entry.bare _ => true

end bmpl

/-- Modelled from the spec: `MakeSeq` of `pmacc/meta/conversion/MakeSeq.hpp`, the sequence
normalization helper. A sequence is returned as it is, a single type becomes the sequence
holding that one type. -/
def MakeSeq {β : Type} : Entry β → List β
  | Entry.seq cs => cs
  | Entry.bare v => [v]

/-- Modelled from the spec: `MakeSeqFromNestedSeq` of
`pmacc/meta/conversion/MakeSeqFromNestedSeq.hpp`, the flattening helper. It merges one level
of a sequence of sequences of records into a single flat sequence of records, keeping the
order. -/
def MakeSeqFromNestedSeq {ρ : Type} (T_In : List (List ρ)) : List ρ :=
  T_In.flatten

namespace math
namespace CT

/-- Modelled from the spec: `math::CT::Vector` of `pmacc/math/Vector.hpp`, the positional
container. Position `p` holds `some c` when it has been assigned the candidate `c` and `none`
when it is unassigned; positions beyond the end of the list are unassigned. -/
abbrev Vector (α : Type) : Type := List (Option α)

/-- Modelled from the spec: the default-constructed container `math::CT::Vector<>`. No
position is assigned. -/
def EmptyVector {α : Type} : Vector α := []

/-- Modelled from the spec: `math::CT::Assign<T_Vec, T_ComponentPos, T_Value>` of
`pmacc/math/Vector.hpp`. The result is the container `T_Vec` with position `T_ComponentPos`
set to `T_Value` and every other position kept. -/
def Assign {α : Type} (T_Vec : Vector α) (T_ComponentPos : Nat) (T_Value : α) : Vector α :=
  (T_Vec ++ List.replicate (T_ComponentPos + 1 - T_Vec.length) none).set T_ComponentPos
    (some T_Value)

/-- Modelled from the spec: read access `get(position)` of the positional container. -/
def get {α : Type} (T_Vec : Vector α) (pos : Nat) : Option α :=
  (T_Vec.get? pos).join

end CT
end math

namespace detail

/-- Member template `AssignToAnyElementInVector<T_ComponentPos, T_Element>::type` of
`detail::AllCombinations`: `bmpl::transform` of `TmpResult` (its `InVector`) with
`CT::Assign<_1, T_ComponentPos, T_Element>`. -/
def AssignToAnyElementInVector {α : Type} (TmpResult : List (math.CT.Vector α))
    (T_ComponentPos : Nat) (T_Element : α) : List (math.CT.Vector α) :=
  TmpResult.map (fun v => math.CT.Assign v T_ComponentPos T_Element)

/-- Typedef `NestedSeq` of `detail::AllCombinations`: `bmpl::transform` of `TmpVector` with
`AssignToAnyElementInVector<integral_c<uint32_t, rangeVectorSize - 1>, _1>`. -/
def NestedSeq {α : Type} (rangeVectorSize : Nat) (TmpVector : List α)
    (TmpResult : List (math.CT.Vector α)) : List (List (math.CT.Vector α)) :=
  TmpVector.map (fun c => AssignToAnyElementInVector TmpResult (rangeVectorSize - 1) c)

/-- Typedef `OneSeq` of `detail::AllCombinations`: `MakeSeqFromNestedSeq<NestedSeq>::type`. -/
def OneSeq {α : Type} (rangeVectorSize : Nat) (TmpVector : List α)
    (TmpResult : List (math.CT.Vector α)) : List (math.CT.Vector α) :=
  MakeSeqFromNestedSeq (NestedSeq rangeVectorSize TmpVector TmpResult)

/-- Recursive `detail::AllCombinations<T_MplSeq, T_TmpResult, T_isEmpty>::type`. The
specialisation for `T_isEmpty == true` returns `T_TmpResult`. The specialisation for
`false` takes the last element of `T_MplSeq` (`bmpl::at` at `rangeVectorSize - 1`), assigns
each of its candidates at that position to every record of `T_TmpResult`, recurses on the
sequence without its last element (`bmpl::pop_back`) and finally selects `bmpl::vector0<>`
when `bmpl::empty<LastElement>` holds. -/
def AllCombinations {α : Type} (T_MplSeq : List (Entry α))
    (T_TmpResult : List (math.CT.Vector α)) : List (math.CT.Vector α) :=
  if h : T_MplSeq.length = 0 then
    T_TmpResult
  else
    let MplSeq := T_MplSeq
    let TmpResult := T_TmpResult
    let rangeVectorSize := MplSeq.length
    let LastElement := MplSeq.get ⟨rangeVectorSize - 1, Nat.sub_lt (Nat.pos_of_ne_zero h) Nat.one_pos⟩
    let IsLastElementEmpty := bmpl.empty LastElement
    let LastElementAsSequence := MakeSeq LastElement
    let ShrinkedRangeVector := MplSeq.dropLast
    let TmpVector := LastElementAsSequence
    let ResultIfNotEmpty := AllCombinations ShrinkedRangeVector
      (OneSeq rangeVectorSize TmpVector TmpResult)
    if IsLastElementEmpty then [] else ResultIfNotEmpty
termination_by T_MplSeq.length
decreasing_by
  simp only [List.length_dropLast]
  omega

end detail

/-- Typedef `FirstList` of the top-level `AllCombinations`: `bmpl::transform` of `TmpVector`
with `CT::Assign<EmptyVector, integral_c<uint32_t, rangeVectorSize - 1>, _1>`. -/
def FirstList {α : Type} (rangeVectorSize : Nat) (TmpVector : List α) :
    List (math.CT.Vector α) :=
  TmpVector.map (fun c => math.CT.Assign math.CT.EmptyVector (rangeVectorSize - 1) c)

/-- Top-level `AllCombinations<T_MplSeq>::type`. The argument is a sequence of entries
(`Entry.seq`) or a single type `V` that is no sequence (`Entry.bare (Entry.bare V)`), and is
first normalised by `MakeSeq`. The last element of the normalised sequence seeds `FirstList`,
one record per candidate with only position `rangeVectorSize - 1` assigned in the default
container; the remaining elements are handled by `detail::AllCombinations`. The result is
`bmpl::vector0<>` when `bmpl::empty<LastElement>` holds. For an empty `MplSeq` the index
`rangeVectorSize - 1` (`uint32_t`, wrapping to `4294967295`) is out of range for `bmpl::at`,
the instantiation is ill-formed and the model returns `none`. -/
def AllCombinations {α : Type} (T_MplSeq : Entry (Entry α)) :
    Option (List (math.CT.Vector α)) :=
  let MplSeq := MakeSeq T_MplSeq
  let rangeVectorSize := MplSeq.length
  match MplSeq.get? (rangeVectorSize - 1) with
  | none => none
  | some LastElement =>
    let IsLastElementEmpty := bmpl.empty LastElement
    let LastElementAsSequence := MakeSeq LastElement
    let ShrinkedRangeVector := MplSeq.dropLast
    let TmpVector := LastElementAsSequence
    let ResultIfNotEmpty := detail.AllCombinations ShrinkedRangeVector
      (FirstList rangeVectorSize TmpVector)
    some (if IsLastElementEmpty then [] else ResultIfNotEmpty)

/-- Nested loops of the documentation: `for c_0 in S_0, ..., for c_(N-1) in S_(N-1): emit
(c_0, ..., c_(N-1))`, the tuples in lexicographic order with position 0 varying slowest. -/
def nestedLoops {α : Type} : List (List α) → List (List α)
  | [] => [[]]
  | S :: rest => S.flatMap (fun c => (nestedLoops rest).map (fun t => c :: t))

/-- The combination space made of the candidate sequences `S_0, ..., S_(N-1)`, each entry
being an MPL sequence. -/
def space {α : Type} (S : List (List α)) : Entry (Entry α) :=
  Entry.seq (S.map Entry.seq)

/-- The fully assigned record `(c_0, ..., c_(N-1))`. -/
def tuple {α : Type} (t : List α) : math.CT.Vector α :=
  t.map some

/-- Odometer of the spec: the index into `S_p` that the counter of position `p` shows at step
`k` of the nested loops over `S`, `(k div (|S_(p+1)| * ... * |S_(N-1)|)) mod |S_p|`; the
rightmost counter advances fastest. -/
def odometerDigit {α : Type} (S : List (List α)) (k p : Nat) : Nat :=
  (k / ((S.drop (p + 1)).map List.length).prod) % (S.getD p []).length

/-! ## Data model of `MapTuple` -/

namespace bmpl

/-- The C++ types that occur as keys and as value types of a schema: the integral constant
`bmpl::int_<i>`, the pair `bmpl::pair<first, second>`, `bmpl::void_`, and any other type
(`cls n`: a key tag or a value type such as `float`), which has no nested type `first`. -/
inductive Ty where
  | int_ (i : Int)
  | pair (first second : Ty)
  | void_
  | cls (n : Nat)
deriving DecidableEq, Repr

/-- Nested type `T::first`; only a `bmpl::pair` has one, for any other type the expression is
ill-formed. -/
def Ty.first : Ty → Option Ty
  | Ty.pair a _ => some a
  | _ => none

/-- A `bmpl::map`: its entries `bmpl::pair<key, value type>` in order. -/
abbrev map : Type := List (Ty × Ty)

/-- Boost.MPL `bmpl::at<Map, Key>::type` for the associative sequence `bmpl::map`: the value
type associated with `Key`, or `bmpl::void_` when the map has no such key. This is the use
`operator[]` makes of it, `bmpl::pair<T_Key, typename bmpl::at<Map, T_Key>::type>` being the
entry of `T_Key`. An integral constant is a key like any other type. -/
def at_ (Map : map) (Key : Ty) : Ty :=
  match Map.find? (fun e => decide (e.1 = Key)) with
  | some e => e.2
  | none => Ty.void_

/-- Boost.MPL `bmpl::size<Map>::type::value`. -/
def size (Map : map) : Int :=
  Map.length

end bmpl

namespace math

/-- Slot `AlignedData<T_Pair>`. The member declared by `PMACC_ALIGN(value, ValueType)` is the
field `value`; the alignment changes the layout of the slot only. -/
structure AlignedData (V : Type) where
  T_Pair : bmpl.Ty × bmpl.Ty
  value : V
deriving DecidableEq, Repr

/-- Typedef `AlignedData::Key`. -/
def AlignedData.Key {V : Type} (self : AlignedData V) : bmpl.Ty := self.T_Pair.1

/-- Typedef `AlignedData::ValueType`. -/
def AlignedData.ValueType {V : Type} (self : AlignedData V) : bmpl.Ty := self.T_Pair.2

/-- Constructor `AlignedData(const ValueType& value)` of the slot for `T_Pair`. -/
def AlignedData.ctor {V : Type} (T_Pair : bmpl.Ty × bmpl.Ty) (value : V) : AlignedData V :=
  { T_Pair := T_Pair, value := value }

/-- Read through `AlignedData::operator[](const Key&)`; an argument of another type than `Key`
does not match the parameter. -/
def AlignedData.op_index {V : Type} (self : AlignedData V) (key : bmpl.Ty) : Option V :=
  if key = self.Key then some self.value else none

/-- Write through the reference returned by `AlignedData::operator[](const Key&)`. -/
def AlignedData.op_index_assign {V : Type} (self : AlignedData V) (key : bmpl.Ty) (v : V) :
    Option (AlignedData V) :=
  if key = self.Key then some { self with value := v } else none

/-- Slot `NativeData<T_Pair>` with its member `ValueType value`. -/
structure NativeData (V : Type) where
  T_Pair : bmpl.Ty × bmpl.Ty
  value : V
deriving DecidableEq, Repr

/-- Typedef `NativeData::Key`. -/
def NativeData.Key {V : Type} (self : NativeData V) : bmpl.Ty := self.T_Pair.1

/-- Typedef `NativeData::ValueType`. -/
def NativeData.ValueType {V : Type} (self : NativeData V) : bmpl.Ty := self.T_Pair.2

/-- Constructor `NativeData(const ValueType& value)` of the slot for `T_Pair`. -/
def NativeData.ctor {V : Type} (T_Pair : bmpl.Ty × bmpl.Ty) (value : V) : NativeData V :=
  { T_Pair := T_Pair, value := value }

/-- Read through `NativeData::operator[](const Key&)`; an argument of another type than `Key`
does not match the parameter. -/
def NativeData.op_index {V : Type} (self : NativeData V) (key : bmpl.Ty) : Option V :=
  if key = self.Key then some self.value else none

/-- Write through the reference returned by `NativeData::operator[](const Key&)`. -/
def NativeData.op_index_assign {V : Type} (self : NativeData V) (key : bmpl.Ty) (v : V) :
    Option (NativeData V) :=
  if key = self.Key then some { self with value := v } else none

/-- The template template parameter `T_PodType` of `MapTuple`: a slot type with the members
that `MapTuple` and its callers use. -/
class PodType (P : Type) (V : outParam Type) where
  T_Pair : P → bmpl.Ty × bmpl.Ty
  ctor : bmpl.Ty × bmpl.Ty → V → P
  op_index : P → bmpl.Ty → Option V
  op_index_assign : P → bmpl.Ty → V → Option P

instance instPodTypeAlignedData {V : Type} : PodType (AlignedData V) V where
  T_Pair := AlignedData.T_Pair
  ctor := AlignedData.ctor
  op_index := AlignedData.op_index
  op_index_assign := AlignedData.op_index_assign

instance instPodTypeNativeData {V : Type} : PodType (NativeData V) V where
  T_Pair := NativeData.T_Pair
  ctor := NativeData.ctor
  op_index := NativeData.op_index
  op_index_assign := NativeData.op_index_assign

/-- Modelled from the spec: `InheritLinearly<T_Map, T_PodType>` of
`pmacc/particles/boostExtension/InheritLinearly.hpp`, the composition of one slot
`T_PodType<entry>` per entry of the schema, in the order of the schema. The slots are
default-constructed, `init` gives the value each slot then holds. -/
def InheritLinearly {P V : Type} [PodType P V] (T_Map : bmpl.map) (init : bmpl.Ty × bmpl.Ty → V) :
    List P :=
  T_Map.map (fun e => PodType.ctor e (init e))

/-- An instance of `MapTuple<T_Map, T_PodType>`: its base class subobjects. -/
structure MapTuple (P : Type) where
  Base : List P
deriving DecidableEq, Repr

namespace MapTuple

/-- A default-constructed `MapTuple<T_Map, T_PodType>`. -/
def construct {P V : Type} [PodType P V] (T_Map : bmpl.map) (init : bmpl.Ty × bmpl.Ty → V) :
    MapTuple P :=
  { Base := InheritLinearly T_Map init }

/-- Member `static constexpr int dim = bmpl::size<Map>::type::value`. -/
def dim (T_Map : bmpl.map) : Int :=
  bmpl.size T_Map

/-- The conversion `static_cast<T_PodType<T_Pair>*>(this)`: the position of the base class
subobject of type `T_PodType<T_Pair>`, or `none` when the tuple has no such base class and the
cast is ill-formed. -/
def static_cast {P V : Type} [PodType P V] (self : MapTuple P) (T_Pair : bmpl.Ty × bmpl.Ty) :
    Option Nat :=
  self.Base.findIdx? (fun b => decide (PodType.T_Pair b = T_Pair))

/-- Read through `MapTuple::operator[](const T_Key& key)`: the tuple is cast to
`T_PodType<bmpl::pair<T_Key, bmpl::at<Map, T_Key>::type>>` and that slot is indexed with
`key`. -/
def op_index {P V : Type} [PodType P V] (T_Map : bmpl.map) (self : MapTuple P) (T_Key : bmpl.Ty) :
    Option V :=
  match self.static_cast (T_Key, bmpl.at_ T_Map T_Key) with
  | none => none
  | some i =>
    match self.Base.get? i with
    | none => none
    | some b => PodType.op_index b T_Key

/-- Write through the reference returned by `MapTuple::operator[](const T_Key& key)`. -/
def op_index_assign {P V : Type} [PodType P V] (T_Map : bmpl.map) (self : MapTuple P)
    (T_Key : bmpl.Ty) (v : V) : Option (MapTuple P) :=
  match self.static_cast (T_Key, bmpl.at_ T_Map T_Key) with
  | none => none
  | some i =>
    match self.Base.get? i with
    | none => none
    | some b =>
      match PodType.op_index_assign b T_Key v with
      | none => none
      | some b2 => some { Base := self.Base.set i b2 }

/-- Read through `MapTuple::at<T_i>()`:
`(*this)[typename bmpl::at<Map, bmpl::int_<T_i>>::type::first()]`. The metafunction
`bmpl::at<Map, X>` is the one `operator[]` applies to a key, the lookup of `X` in the map;
its result must have a nested type `first`, an object of which is the key handed to
`operator[]`. -/
def at_ {P V : Type} [PodType P V] (T_Map : bmpl.map) (self : MapTuple P) (T_i : Int) :
    Option V :=
  match (bmpl.at_ T_Map (bmpl.Ty.int_ T_i)).first with
  | none => none
  | some key => self.op_index T_Map key

/-- Write through the reference returned by `MapTuple::at<T_i>()`. -/
def at_assign {P V : Type} [PodType P V] (T_Map : bmpl.map) (self : MapTuple P) (T_i : Int)
    (v : V) : Option (MapTuple P) :=
  match (bmpl.at_ T_Map (bmpl.Ty.int_ T_i)).first with
  | none => none
  | some key => self.op_index_assign T_Map key v

end MapTuple

end math

/-! ## Programs over a `MapTuple`, used to compare the two slot policies -/

namespace math

/-- One access to a tuple: a write or a read, through `operator[]` or through `at`. -/
inductive Access (V : Type) where
  | write_key (key : bmpl.Ty) (v : V)
  | write_pos (i : Int) (v : V)
  | read_key (key : bmpl.Ty)
  | read_pos (i : Int)
deriving DecidableEq, Repr

/-- What one access shows to its caller: the value read, a completed write, or the rejection
of an access that does not resolve to a slot. -/
inductive Observation (V : Type) where
  | value (v : V)
  | written
  | rejected
deriving DecidableEq, Repr

/-- Perform a sequence of accesses on a tuple, starting from `self`, and collect what each
access shows. A rejected write leaves the tuple as it is. -/
def MapTuple.run {P V : Type} [PodType P V] (T_Map : bmpl.map) :
    MapTuple P → List (Access V) → List (Observation V)
  | _, [] => []
  | self, Access.write_key key v :: rest =>
    match self.op_index_assign T_Map key v with
    | none => Observation.rejected :: MapTuple.run T_Map self rest
    | some next => Observation.written :: MapTuple.run T_Map next rest
  | self, Access.write_pos i v :: rest =>
    match self.at_assign T_Map i v with
    | none => Observation.rejected :: MapTuple.run T_Map self rest
    | some next => Observation.written :: MapTuple.run T_Map next rest
  | self, Access.read_key key :: rest =>
    match self.op_index T_Map key with
    | none => Observation.rejected :: MapTuple.run T_Map self rest
    | some v => Observation.value v :: MapTuple.run T_Map self rest
  | self, Access.read_pos i :: rest =>
    match self.at_ T_Map i with
    | none => Observation.rejected :: MapTuple.run T_Map self rest
    | some v => Observation.value v :: MapTuple.run T_Map self rest

/-- The `AlignedData` slot holding what a `NativeData` slot holds. -/
def NativeData.toAligned {V : Type} (b : NativeData V) : AlignedData V :=
  { T_Pair := b.T_Pair, value := b.value }

/-- The `MapTuple<Map, AlignedData>` holding, slot by slot, what a `MapTuple<Map, NativeData>`
holds. -/
def MapTuple.toAligned {V : Type} (self : MapTuple (NativeData V)) : MapTuple (AlignedData V) :=
  { Base := self.Base.map NativeData.toAligned }

end math

end pmacc

namespace pmacc

/-! ## Theorems about `AllCombinations` -/

theorem detail_nil {α : Type} (R : List (math.CT.Vector α)) :
    detail.AllCombinations [] R = R := by
  rw [detail.AllCombinations]; simp

theorem detail_concat {α : Type} (xs : List (Entry α)) (e : Entry α) (R : List (math.CT.Vector α)) :
    detail.AllCombinations (xs ++ [e]) R =
      if bmpl.empty e then [] else
        detail.AllCombinations xs (detail.OneSeq (xs.length + 1) (MakeSeq e) R) := by
  rw [detail.AllCombinations]
  simp

theorem nestedLoops_cons {α : Type} (S : List α) (rest : List (List α)) :
    nestedLoops (S :: rest) = S.flatMap (fun c => (nestedLoops rest).map (fun t => c :: t)) :=
  rfl

theorem nestedLoops_concat {α : Type} (xs : List (List α)) (S : List α) :
    nestedLoops (xs ++ [S]) = (nestedLoops xs).flatMap (fun h => S.map (fun c => h ++ [c])) := by
  induction xs with
  | nil =>
    simp only [List.nil_append, nestedLoops_cons, nestedLoops, List.map_singleton,
      List.flatMap_singleton]
    exact (List.map_eq_flatMap _ S).symm
  | cons x xs ih =>
    simp only [List.cons_append, nestedLoops_cons, ih, List.flatMap_assoc, List.map_flatMap,
      List.flatMap_map, List.map_map]
    rfl

theorem Assign_empty {α : Type} (k : Nat) (c : α) :
    math.CT.Assign math.CT.EmptyVector k c = List.replicate k none ++ [some c] := by
  simp [math.CT.Assign, math.CT.EmptyVector, List.replicate_succ']

theorem Assign_pad {α : Type} (k : Nat) (c : α) (t : math.CT.Vector α) :
    math.CT.Assign (List.replicate (k + 1) none ++ t) k c = List.replicate k none ++ some c :: t := by
  have h : k + 1 - ((List.replicate (k + 1) (none : Option α)) ++ t).length = 0 := by
    simp
  rw [math.CT.Assign, h, List.replicate_zero, List.append_nil, List.replicate_succ',
    List.append_assoc, List.set_append_right _ _ (by simp)]
  simp

theorem OneSeq_pad {α : Type} (k : Nat) (S : List α) (T : List (List α)) :
    detail.OneSeq (k + 1) S (T.map (fun t => List.replicate (k + 1) none ++ tuple t)) =
      (S.flatMap (fun c => T.map (fun t => c :: t))).map
        (fun t => List.replicate k none ++ tuple t) := by
  simp only [detail.OneSeq, detail.NestedSeq, detail.AssignToAnyElementInVector,
    MakeSeqFromNestedSeq, Nat.add_sub_cancel, ← List.flatMap_def, List.map_map,
    List.map_flatMap, Function.comp_def, Assign_pad]
  rfl

theorem detail_seq {α : Type} (xs : List (List α)) (T : List (List α)) :
    detail.AllCombinations (xs.map Entry.seq)
        (T.map (fun t => List.replicate xs.length none ++ tuple t)) =
      (nestedLoops xs).flatMap (fun h => T.map (fun t => tuple (h ++ t))) := by
  induction xs using List.reverseRecOn generalizing T with
  | nil => simp [detail_nil, nestedLoops]
  | append_singleton xs S ih =>
    rw [List.map_append, List.map_singleton, detail_concat, List.length_map,
      List.length_append, List.length_singleton]
    simp only [MakeSeq]
    rw [OneSeq_pad, ih, nestedLoops_concat]
    cases S with
    | nil => simp [bmpl.empty]
    | cons c S =>
      simp only [bmpl.empty, List.isEmpty_cons, Bool.false_eq_true, if_false,
        List.flatMap_assoc, List.map_flatMap, List.flatMap_map, List.map_map, Function.comp_def,
        List.append_assoc, List.singleton_append]

theorem AllCombinations_concat {α : Type} (es : List (Entry α)) (e : Entry α) :
    AllCombinations (Entry.seq (es ++ [e])) =
      some (if bmpl.empty e then [] else
        detail.AllCombinations es
          ((MakeSeq e).map (fun c => math.CT.Assign math.CT.EmptyVector es.length c))) := by
  simp [AllCombinations, FirstList, MakeSeq]

theorem AllCombinations_space_concat {α : Type} (xs : List (List α)) (L : List α) :
    AllCombinations (space (xs ++ [L])) = some ((nestedLoops (xs ++ [L])).map tuple) := by
  have hT : (L.map (fun c => math.CT.Assign math.CT.EmptyVector (xs.map Entry.seq).length c)) =
      (L.map (fun c => [c])).map (fun t => List.replicate xs.length none ++ tuple t) := by
    simp [Assign_empty, tuple]
  rw [space, List.map_append, List.map_singleton, AllCombinations_concat]
  simp only [MakeSeq]
  rw [hT, detail_seq, nestedLoops_concat]
  cases L with
  | nil => simp [bmpl.empty]
  | cons c L =>
    simp only [bmpl.empty, List.isEmpty_cons, Bool.false_eq_true, if_false, List.map_flatMap,
      List.map_map, Function.comp_def]

theorem AllCombinations_space {α : Type} (S : List (List α)) (hN : 1 ≤ S.length) :
    AllCombinations (space S) = some ((nestedLoops S).map tuple) := by
  induction S using List.reverseRecOn with
  | nil => simp at hN
  | append_singleton xs L _ => exact AllCombinations_space_concat xs L

theorem length_flatMap_const {α β : Type} (l : List α) (f : α → List β) (n : Nat)
    (h : ∀ a, (f a).length = n) : (l.flatMap f).length = l.length * n := by
  induction l with
  | nil => simp
  | cons a l ih => simp [List.flatMap_cons, h, ih, Nat.succ_mul, Nat.add_comm]

theorem length_nestedLoops {α : Type} (S : List (List α)) :
    (nestedLoops S).length = (S.map List.length).prod := by
  induction S with
  | nil => simp [nestedLoops]
  | cons s rest ih =>
    rw [nestedLoops_cons, length_flatMap_const s _ (nestedLoops rest).length (by simp), ih]
    simp

theorem nestedLoops_eq_nil {α : Type} (S : List (List α)) (h : [] ∈ S) : nestedLoops S = [] := by
  induction S with
  | nil => simp at h
  | cons s rest ih =>
    rw [nestedLoops_cons]
    rcases List.mem_cons.mp h with h1 | h2
    · subst h1; simp
    · simp [ih h2]

theorem mem_nestedLoops {α : Type} (S : List (List α)) (r : math.CT.Vector α) :
    r ∈ (nestedLoops S).map tuple ↔ List.Forall₂ (fun x s => ∃ c, c ∈ s ∧ x = some c) r S := by
  induction S generalizing r with
  | nil => simp [nestedLoops, tuple]
  | cons s rest ih =>
    rw [nestedLoops_cons, List.forall₂_cons_right_iff]
    simp only [List.mem_map, List.mem_flatMap] at ih ⊢
    constructor
    · rintro ⟨t, ⟨c, hc, t2, ht2, rfl⟩, rfl⟩
      exact ⟨some c, tuple t2, ⟨c, hc, rfl⟩, (ih _).mp ⟨t2, ht2, rfl⟩, rfl⟩
    · rintro ⟨x, r2, ⟨c, hc, rfl⟩, hr2, rfl⟩
      obtain ⟨t2, ht2, rfl⟩ := (ih _).mpr hr2
      exact ⟨c :: t2, ⟨c, hc, t2, ht2, rfl⟩, rfl⟩

theorem forall₂_iff_positions {α : Type} (S : List (List α)) (r : math.CT.Vector α) :
    List.Forall₂ (fun x s => ∃ c, c ∈ s ∧ x = some c) r S ↔
      (r.length = S.length ∧
        ∀ p, p < S.length → ∃ c, c ∈ S.getD p [] ∧ math.CT.get r p = some c) := by
  induction S generalizing r with
  | nil =>
    simp
  | cons s rest ih =>
    rw [List.forall₂_cons_right_iff]
    constructor
    · rintro ⟨x, r2, ⟨c, hc, rfl⟩, hr2, rfl⟩
      obtain ⟨hl, hp⟩ := (ih r2).mp hr2
      refine ⟨by simp [hl], ?_⟩
      intro p hp2
      cases p with
      | zero => exact ⟨c, by simpa using hc, by simp [math.CT.get]⟩
      | succ p =>
        obtain ⟨d, hd, hg⟩ := hp p (by simpa using hp2)
        exact ⟨d, by simpa using hd, by simpa [math.CT.get] using hg⟩
    · rintro ⟨hl, hp⟩
      cases r with
      | nil => simp at hl
      | cons x r2 =>
        refine ⟨x, r2, ?_, (ih r2).mpr ⟨by simpa using hl, ?_⟩, rfl⟩
        · obtain ⟨c, hc, hg⟩ := hp 0 (by simp)
          exact ⟨c, by simpa using hc, by simpa [math.CT.get] using hg⟩
        · intro p hp2
          obtain ⟨d, hd, hg⟩ := hp (p + 1) (by simpa using hp2)
          exact ⟨d, by simpa using hd, by simpa [math.CT.get] using hg⟩

/-- C1: for every combination space of N >= 1 candidate sequences, `AllCombinations` is
exactly the sequence emitted by the nested loops over `S_0`, ..., `S_(N-1)`, that is the
tuples in lexicographic order with position 0 varying slowest and position N-1 fastest. -/
theorem C1_AllCombinations_is_nestedLoops {α : Type} (S : List (List α)) (hN : 1 ≤ S.length) :
    AllCombinations (space S) = some ((nestedLoops S).map tuple) :=
  AllCombinations_space S hN

/-- C1, the two documented cases: `[[a,b],[x,y,z]]` and `[[1,2],[1],[4,3]]`. -/
theorem C1_AllCombinations_is_nestedLoops_witness :
    (1 ≤ [['a', 'b'], ['x', 'y', 'z']].length ∧
      AllCombinations (space [['a', 'b'], ['x', 'y', 'z']]) =
        some [tuple ['a', 'x'], tuple ['a', 'y'], tuple ['a', 'z'],
          tuple ['b', 'x'], tuple ['b', 'y'], tuple ['b', 'z']]) ∧
    (1 ≤ [[1, 2], [1], [4, 3]].length ∧
      AllCombinations (space [[1, 2], [1], [4, 3]]) =
        some [tuple [1, 1, 4], tuple [1, 1, 3], tuple [2, 1, 4], tuple [2, 1, 3]]) :=
  ⟨⟨by decide, C1_AllCombinations_is_nestedLoops [['a', 'b'], ['x', 'y', 'z']] (by decide)⟩,
    ⟨by decide, C1_AllCombinations_is_nestedLoops [[1, 2], [1], [4, 3]] (by decide)⟩⟩

/-- C2: for every combination space of N >= 1 candidate sequences of lengths `S0`, ...,
`S(N-1)`, the number of tuples of `AllCombinations` is the product `S0 * ... * S(N-1)`. -/
theorem C2_AllCombinations_length {α : Type} (S : List (List α)) (hN : 1 ≤ S.length) :
    (AllCombinations (space S)).map List.length = some (S.map List.length).prod := by
  rw [AllCombinations_space S hN, Option.map_some', List.length_map, length_nestedLoops]

/-- C2 at `[[1,2],[1],[4,3]]`: the result has `2 * 1 * 2 = 4` tuples. -/
theorem C2_AllCombinations_length_witness :
    1 ≤ [[1, 2], [1], [4, 3]].length ∧
      (AllCombinations (space [[1, 2], [1], [4, 3]])).map List.length = some 4 :=
  ⟨by decide, C2_AllCombinations_length [[1, 2], [1], [4, 3]] (by decide)⟩

/-- C3 (absorption): when the candidate sequence at some position `i` of a combination space
is empty, `AllCombinations` is the empty sequence, whatever the other positions hold. -/
theorem C3_AllCombinations_absorption {α : Type} (S : List (List α)) (i : Nat)
    (hi : S.get? i = some []) : AllCombinations (space S) = some [] := by
  have hmem : [] ∈ S := List.get?_mem hi
  have hN : 1 ≤ S.length := List.length_pos_of_mem hmem
  rw [AllCombinations_space S hN, nestedLoops_eq_nil S hmem]
  rfl

/-- C3 at `S0 = [a, b]`, `S1 = []`: the result is empty. -/
theorem C3_AllCombinations_absorption_witness :
    [['a', 'b'], []].get? 1 = some [] ∧ AllCombinations (space [['a', 'b'], []]) = some [] :=
  ⟨by decide, C3_AllCombinations_absorption [['a', 'b'], []] 1 (by decide)⟩

/-- C4 (full, unfiltered product): for every combination space `S_0`, ..., `S_(N-1)` with
N >= 1, a record occurs in `AllCombinations` if and only if it has N slots and every position
`p` of it is assigned an element of `S_p`. -/
theorem C4_AllCombinations_full_product {α : Type} (S : List (List α)) (hN : 1 ≤ S.length) :
    ∃ R, AllCombinations (space S) = some R ∧
      ∀ r : math.CT.Vector α, r ∈ R ↔
        (r.length = S.length ∧
          ∀ p, p < S.length → ∃ c, c ∈ S.getD p [] ∧ math.CT.get r p = some c) := by
  refine ⟨_, AllCombinations_space S hN, fun r => ?_⟩
  rw [mem_nestedLoops, forall₂_iff_positions]

/-- C4 at `[[1,2],[1],[4,3]]`. -/
theorem C4_AllCombinations_full_product_witness :
    1 ≤ [[1, 2], [1], [4, 3]].length ∧
      ∃ R, AllCombinations (space [[1, 2], [1], [4, 3]]) = some R ∧
        ∀ r : math.CT.Vector Nat, r ∈ R ↔
          (r.length = [[1, 2], [1], [4, 3]].length ∧
            ∀ p, p < [[1, 2], [1], [4, 3]].length →
              ∃ c, c ∈ [[1, 2], [1], [4, 3]].getD p [] ∧ math.CT.get r p = some c) :=
  ⟨by decide, C4_AllCombinations_full_product [[1, 2], [1], [4, 3]] (by decide)⟩

/-- C7: at the single non-sequence value `5` the code tests `bmpl::empty` on the value itself,
not on its normalised sequence, and selects the empty result instead of the one record
`(5)`. -/
theorem C7_AllCombinations_bare_value :
    AllCombinations (Entry.bare (Entry.bare (5 : Nat))) = some [] ∧
      AllCombinations (Entry.bare (Entry.bare (5 : Nat))) ≠ some [tuple [5]] := by
  simp [AllCombinations, FirstList, MakeSeq, bmpl.empty]

/-- C8: for a combination space of exactly one candidate sequence `S`, `AllCombinations` has
one 1-slot record `(c)` per candidate `c` of `S`, in the order of `S`. -/
theorem C8_AllCombinations_single_sequence {α : Type} (S : List α) :
    AllCombinations (space [S]) = some (S.map (fun c => tuple [c])) := by
  rw [AllCombinations_space [S] (by simp), nestedLoops_cons]
  simp only [nestedLoops, List.map_singleton, List.map_flatMap]
  exact congrArg some (List.map_eq_flatMap _ S).symm

theorem get_Assign_self {α : Type} (r : math.CT.Vector α) (p : Nat) (c : α) :
    math.CT.get (math.CT.Assign r p c) p = some c := by
  have hlt : p < r.length + (p + 1 - r.length) := by omega
  simp [math.CT.get, math.CT.Assign, List.getElem?_set, hlt]

theorem get_Assign_other {α : Type} (r : math.CT.Vector α) (p q : Nat) (c : α) (hq : q ≠ p) :
    math.CT.get (math.CT.Assign r p c) q = math.CT.get r q := by
  have hpq : ¬ p = q := fun h => hq h.symm
  simp only [math.CT.get, math.CT.Assign, List.get?_eq_getElem?, List.getElem?_set, hpq,
    if_false]
  by_cases hlt : q < r.length
  · rw [List.getElem?_append_left hlt]
  · rw [List.getElem?_append_right (by omega), List.getElem?_eq_none (by omega : r.length ≤ q)]
    cases h : (List.replicate (p + 1 - r.length) (none : Option α))[q - r.length]? with
    | none => rfl
    | some x =>
      obtain ⟨hlt2, hx⟩ := List.getElem?_eq_some.mp h
      rw [List.getElem_replicate] at hx
      rw [← hx]
      rfl

theorem OneSeq_eq_flatMap {α : Type} (n : Nat) (S : List α) (R : List (math.CT.Vector α)) :
    detail.OneSeq n S R = S.flatMap (fun c => R.map (fun r => math.CT.Assign r (n - 1) c)) := by
  simp only [detail.OneSeq, detail.NestedSeq, detail.AssignToAnyElementInVector,
    MakeSeqFromNestedSeq, List.flatMap_def]

/-- C13 (accumulation step): for the remaining list `xs ++ [S]`, whose last entry `S` sits at
position `p = xs.length`, and every partial result `R`, `detail::AllCombinations` continues on
`xs` with `OneSeq` (or selects the empty result when `S` is empty); `OneSeq` is the flat
sequence, candidate by candidate, of the records of `R` with position `p` set to the
candidate, so it has exactly `|R| * |S|` records; for every record `r` of `R` and every
candidate `c` of `S` it contains a record that holds `c` at position `p` and what `r` holds at
every other position, and it contains no other record. -/
theorem C13_accumulation_step {α : Type} (xs : List (Entry α)) (S : List α)
    (R : List (math.CT.Vector α)) :
    detail.AllCombinations (xs ++ [Entry.seq S]) R =
        (if S.isEmpty then [] else
          detail.AllCombinations xs (detail.OneSeq (xs ++ [Entry.seq S]).length S R)) ∧
      detail.OneSeq (xs ++ [Entry.seq S]).length S R =
        S.flatMap (fun c => R.map (fun r => math.CT.Assign r xs.length c)) ∧
      (detail.OneSeq (xs ++ [Entry.seq S]).length S R).length = R.length * S.length ∧
      (∀ r c, r ∈ R → c ∈ S →
        ∃ r2, r2 ∈ detail.OneSeq (xs ++ [Entry.seq S]).length S R ∧
          math.CT.get r2 xs.length = some c ∧
          ∀ q, q ≠ xs.length → math.CT.get r2 q = math.CT.get r q) ∧
      (∀ r2, r2 ∈ detail.OneSeq (xs ++ [Entry.seq S]).length S R →
        ∃ r c, r ∈ R ∧ c ∈ S ∧ math.CT.get r2 xs.length = some c ∧
          ∀ q, q ≠ xs.length → math.CT.get r2 q = math.CT.get r q) := by
  have hOne : detail.OneSeq (xs ++ [Entry.seq S]).length S R =
      S.flatMap (fun c => R.map (fun r => math.CT.Assign r xs.length c)) := by
    rw [OneSeq_eq_flatMap]
    simp only [List.length_append, List.length_singleton, Nat.add_sub_cancel]
  refine ⟨?_, hOne, ?_, ?_, ?_⟩
  · rw [detail_concat]
    simp [bmpl.empty, MakeSeq]
  · rw [hOne, length_flatMap_const S _ R.length (by simp), Nat.mul_comm]
  · intro r c hr hc
    refine ⟨math.CT.Assign r xs.length c, ?_, get_Assign_self r xs.length c,
      fun q hq => get_Assign_other r xs.length q c hq⟩
    rw [hOne]
    exact List.mem_flatMap.mpr ⟨c, hc, List.mem_map.mpr ⟨r, hr, rfl⟩⟩
  · intro r2 hr2
    rw [hOne] at hr2
    obtain ⟨c, hc, hr2c⟩ := List.mem_flatMap.mp hr2
    obtain ⟨r, hr, rfl⟩ := List.mem_map.mp hr2c
    exact ⟨r, c, hr, hc, get_Assign_self r xs.length c,
      fun q hq => get_Assign_other r xs.length q c hq⟩

/-- C13 at the step of `[[1,2],[1],[4,3]]` that handles `S_1 = [1]` with the partial result
`R = [(_,_,4), (_,_,3)]`: `OneSeq` is `[(_,1,4), (_,1,3)]`; and at the empty partial result,
where `OneSeq` is empty. -/
theorem C13_accumulation_step_witness :
    detail.OneSeq ([Entry.seq [1, 2]] ++ [Entry.seq [1]]).length [1]
        [[none, none, some 4], [none, none, some 3]] =
      [[none, some 1, some 4], [none, some 1, some 3]] ∧
    (detail.OneSeq ([Entry.seq [1, 2]] ++ [Entry.seq [1]]).length [1]
        [[none, none, some 4], [none, none, some 3]]).length = 2 * 1 ∧
    (detail.OneSeq (([] : List (Entry Nat)) ++ [Entry.seq [1, 2]]).length [1, 2] []).length =
      0 * 2 :=
  ⟨(C13_accumulation_step [Entry.seq [1, 2]] [1]
      [[none, none, some 4], [none, none, some 3]]).2.1,
    (C13_accumulation_step [Entry.seq [1, 2]] [1]
      [[none, none, some 4], [none, none, some 3]]).2.2.1,
    (C13_accumulation_step ([] : List (Entry Nat)) [1, 2] []).2.2.1⟩

/-- C14 (seed step): for the combination space `xs ++ [L]` of N >= 1 candidate sequences,
`FirstList` has one record per candidate of the last sequence `L`, in the order of `L`; the
record of the candidate `c` is the default container with position N-1 assigned to `c` and
the positions 0..N-2 unassigned; `AllCombinations` hands this list to
`detail::AllCombinations` as the first partial result. -/
theorem C14_seed_step {α : Type} (xs : List (List α)) (L : List α) :
    FirstList (xs ++ [L]).length L =
        L.map (fun c => List.replicate ((xs ++ [L]).length - 1) none ++ [some c]) ∧
      AllCombinations (space (xs ++ [L])) =
        some (if L.isEmpty then [] else
          detail.AllCombinations (xs.map Entry.seq) (FirstList (xs ++ [L]).length L)) := by
  refine ⟨?_, ?_⟩
  · simp only [FirstList, Assign_empty]
  · rw [space, List.map_append, List.map_singleton, AllCombinations_concat]
    simp [bmpl.empty, MakeSeq, FirstList]

theorem nodup_nestedLoops {α : Type} (S : List (List α)) (hS : ∀ s, s ∈ S → s.Nodup) :
    (nestedLoops S).Nodup := by
  induction S with
  | nil => simp [nestedLoops]
  | cons s rest ih =>
    have hs : s.Nodup := hS s (List.mem_cons_self _ _)
    have hrest : (nestedLoops rest).Nodup := ih (fun x hx => hS x (List.mem_cons_of_mem _ hx))
    rw [nestedLoops_cons, List.nodup_flatMap]
    refine ⟨fun c _ => hrest.map (fun a b h => (List.cons.inj h).2), ?_⟩
    refine hs.imp ?_
    intro a b hab
    rw [Function.onFun, List.disjoint_left]
    intro t hta htb
    obtain ⟨_, _, rfl⟩ := List.mem_map.mp hta
    obtain ⟨_, _, h2⟩ := List.mem_map.mp htb
    exact hab (List.cons.inj h2).1.symm

/-- C18 (no duplicate records): for every combination space of N >= 1 candidate sequences
none of which repeats an element, `AllCombinations` repeats no record, and every combination
of candidates (every record of N slots whose position `p` holds an element of `S_p`) occurs
at exactly one index of the result. -/
theorem C18_AllCombinations_nodup {α : Type} (S : List (List α)) (hN : 1 ≤ S.length)
    (hS : ∀ s, s ∈ S → s.Nodup) :
    ∃ R, AllCombinations (space S) = some R ∧ R.Nodup ∧
      ∀ r : math.CT.Vector α,
        (r.length = S.length ∧
          ∀ p, p < S.length → ∃ c, c ∈ S.getD p [] ∧ math.CT.get r p = some c) →
        ∃ k, R.get? k = some r ∧ ∀ j, R.get? j = some r → j = k := by
  have hnd : ((nestedLoops S).map tuple).Nodup :=
    (nodup_nestedLoops S hS).map (fun a b h => List.map_injective_iff.mpr
      (Option.some_injective α) h)
  refine ⟨_, AllCombinations_space S hN, hnd, ?_⟩
  intro r hr
  have hmem : r ∈ (nestedLoops S).map tuple :=
    (mem_nestedLoops S r).mpr ((forall₂_iff_positions S r).mpr hr)
  obtain ⟨k, hk⟩ := List.get?_of_mem hmem
  refine ⟨k, hk, fun j hj => ?_⟩
  by_contra hjk
  have hlt : k < ((nestedLoops S).map tuple).length := by
    rw [List.get?_eq_getElem?] at hk
    exact (List.getElem?_eq_some.mp hk).1
  have hjl : j < ((nestedLoops S).map tuple).length := by
    rw [List.get?_eq_getElem?] at hj
    exact (List.getElem?_eq_some.mp hj).1
  rcases Nat.lt_or_gt_of_ne hjk with h | h
  · exact List.nodup_iff_get?_ne_get?.mp hnd j k h hlt (hj.trans hk.symm)
  · exact List.nodup_iff_get?_ne_get?.mp hnd k j h hjl (hk.trans hj.symm)

/-- C18 at `[[1,2],[1],[4,3]]`: the four records are pairwise distinct and each combination
has its one index. -/
theorem C18_AllCombinations_nodup_witness :
    1 ≤ [[1, 2], [1], [4, 3]].length ∧ (∀ s, s ∈ [[1, 2], [1], [4, 3]] → s.Nodup) ∧
      ∃ R, AllCombinations (space [[1, 2], [1], [4, 3]]) = some R ∧ R.Nodup ∧
        ∀ r : math.CT.Vector Nat,
          (r.length = [[1, 2], [1], [4, 3]].length ∧
            ∀ p, p < [[1, 2], [1], [4, 3]].length →
              ∃ c, c ∈ [[1, 2], [1], [4, 3]].getD p [] ∧ math.CT.get r p = some c) →
          ∃ k, R.get? k = some r ∧ ∀ j, R.get? j = some r → j = k :=
  ⟨by decide, by decide,
    C18_AllCombinations_nodup [[1, 2], [1], [4, 3]] (by decide) (by decide)⟩

/-- C19: the space whose entry at position 0 is the single non-sequence value `1` and whose
entry at position 1 is `[2, 3]` yields the empty result, whereas the space with `[1]` at
position 0 yields `(1,2), (1,3)`: `bmpl::empty` is tested on the entry itself, before
`MakeSeq`; the same happens for a single value at the last position. -/
theorem C19_bare_entry_not_normalised :
    AllCombinations (Entry.seq [Entry.bare 1, Entry.seq [2, 3]]) = some [] ∧
      AllCombinations (Entry.seq [Entry.seq [1], Entry.seq [2, 3]]) =
        some [tuple [1, 2], tuple [1, 3]] ∧
      AllCombinations (Entry.seq [Entry.seq [2, 3], Entry.bare 1]) = some [] ∧
      AllCombinations (Entry.seq [Entry.seq [2, 3], Entry.seq [1]]) =
        some [tuple [2, 1], tuple [3, 1]] := by
  refine ⟨?_, ?_, ?_, ?_⟩
  · exact (AllCombinations_concat [Entry.bare 1] (Entry.seq [2, 3])).trans (by
      rw [← List.nil_append [Entry.bare 1], detail_concat]
      simp [bmpl.empty])
  · exact AllCombinations_space [[1], [2, 3]] (by decide)
  · exact (AllCombinations_concat [Entry.seq [2, 3]] (Entry.bare 1)).trans (by
      simp [bmpl.empty])
  · exact AllCombinations_space [[2, 3], [1]] (by decide)

theorem get?_flatMap_const {α β : Type} (l : List α) (f : α → List β) (M : Nat) (hM : 0 < M)
    (h : ∀ a, (f a).length = M) (k : Nat) :
    (l.flatMap f).get? k = (l.get? (k / M)).bind (fun a => (f a).get? (k % M)) := by
  induction l generalizing k with
  | nil => simp
  | cons a l ih =>
    rw [List.flatMap_cons]
    simp only [List.get?_eq_getElem?] at ih ⊢
    by_cases hk : k < M
    · rw [List.getElem?_append_left (by rw [h]; exact hk), Nat.div_eq_of_lt hk,
        Nat.mod_eq_of_lt hk]
      simp
    · have hge : M ≤ k := Nat.le_of_not_lt hk
      rw [List.getElem?_append_right (by rw [h]; exact hge), h, ih]
      have h1 : k / M = (k - M) / M + 1 := by
        rw [Nat.div_eq_sub_div hM hge]
      have h2 : k % M = (k - M) % M := by
        rw [Nat.mod_eq_sub_mod hge]
      rw [h1, h2]
      simp

theorem prod_drop_dvd {α : Type} (S : List (List α)) (p : Nat) (hp : p < S.length) :
    ((S.drop (p + 1)).map List.length).prod * (S.getD p []).length ∣
      (S.map List.length).prod := by
  induction S generalizing p with
  | nil => simp at hp
  | cons s rest ih =>
    cases p with
    | zero =>
      simp only [List.drop_succ_cons, List.drop_zero, List.getD_cons_zero, List.map_cons,
        List.prod_cons]
      exact ⟨1, by rw [Nat.mul_one, Nat.mul_comm]⟩
    | succ p =>
      simp only [List.drop_succ_cons, List.getD_cons_succ, List.map_cons, List.prod_cons]
      exact Dvd.dvd.mul_left (ih p (by simpa using hp)) _

theorem nestedLoops_get? {α : Type} (S : List (List α)) (k : Nat)
    (hk : k < (S.map List.length).prod) :
    ∃ t, (nestedLoops S).get? k = some t ∧ t.length = S.length ∧
      ∀ p, p < S.length → t.get? p = (S.getD p []).get? (odometerDigit S k p) := by
  induction S generalizing k with
  | nil =>
    simp only [List.map_nil, List.prod_nil, Nat.lt_one_iff] at hk
    subst hk
    exact ⟨[], rfl, rfl, fun p hp => by simp at hp⟩
  | cons s rest ih =>
    simp only [List.map_cons, List.prod_cons] at hk
    have hM : 0 < (rest.map List.length).prod := by
      rcases Nat.eq_zero_or_pos (rest.map List.length).prod with h0 | h0
      · rw [h0] at hk; simp at hk
      · exact h0
    have hdiv : k / (rest.map List.length).prod < s.length :=
      Nat.div_lt_of_lt_mul (by rw [Nat.mul_comm]; exact hk)
    obtain ⟨t, ht, htl, htp⟩ := ih (k % (rest.map List.length).prod) (Nat.mod_lt _ hM)
    refine ⟨s.get ⟨_, hdiv⟩ :: t, ?_, by simp [htl], ?_⟩
    · rw [nestedLoops_cons, get?_flatMap_const s _ (rest.map List.length).prod hM
        (by simp [length_nestedLoops])]
      simp only [List.get?_eq_getElem?] at ht ⊢
      rw [List.getElem?_eq_getElem hdiv]
      simp [ht]
    · intro p hp
      cases p with
      | zero =>
        simp only [odometerDigit, List.drop_succ_cons, List.drop_zero, List.getD_cons_zero,
          Nat.mod_eq_of_lt hdiv, List.get?_eq_getElem?, List.getElem?_cons_zero]
        rw [List.getElem?_eq_getElem hdiv]
        rfl
      | succ p =>
        have hp2 : p < rest.length := by simpa using hp
        have hdvd := prod_drop_dvd rest p hp2
        have hrew : odometerDigit (s :: rest) k (p + 1) =
            odometerDigit rest (k % (rest.map List.length).prod) p := by
          simp only [odometerDigit, List.drop_succ_cons, List.getD_cons_succ]
          obtain ⟨A, hA⟩ := hdvd
          rw [hA, Nat.mul_assoc, Nat.mod_mul_right_div_self,
            Nat.mod_mod_of_dvd _ (Dvd.intro _ rfl)]
        rw [hrew]
        simpa using htp p hp2

theorem get_tuple {α : Type} (t : List α) (p : Nat) : math.CT.get (tuple t) p = t.get? p := by
  simp only [math.CT.get, tuple, List.get?_eq_getElem?, List.getElem?_map]
  cases t[p]? <;> rfl

/-- C15 (odometer equivalence): for every combination space `S` of N >= 1 candidate
sequences, every index `k` below the product of their lengths and every position `p`, the
record at index `k` of `AllCombinations` holds at position `p` the candidate of `S_p` at index
`(k div (|S_(p+1)| * ... * |S_(N-1)|)) mod |S_p|`. -/
theorem C15_odometer {α : Type} (S : List (List α)) (hN : 1 ≤ S.length) (k : Nat)
    (hk : k < (S.map List.length).prod) (p : Nat) (hp : p < S.length) :
    ∃ R r c, AllCombinations (space S) = some R ∧ R.get? k = some r ∧
      (S.getD p []).get? (odometerDigit S k p) = some c ∧ math.CT.get r p = some c := by
  obtain ⟨t, ht, htl, htp⟩ := nestedLoops_get? S k hk
  have hpt : p < t.length := by rw [htl]; exact hp
  refine ⟨_, tuple t, t.get ⟨p, hpt⟩, AllCombinations_space S hN, ?_, ?_, ?_⟩
  · simp only [List.get?_eq_getElem?, List.getElem?_map] at ht ⊢
    rw [ht]
    rfl
  · rw [← htp p hp]
    exact List.get?_eq_get hpt
  · rw [get_tuple]
    exact List.get?_eq_get hpt

/-- C15 at `[[1,2],[1],[4,3]]`, index 3 and position 2: the record `(2,1,3)` holds `3`. -/
theorem C15_odometer_witness :
    1 ≤ [[1, 2], [1], [4, 3]].length ∧
    3 < ([[1, 2], [1], [4, 3]].map List.length).prod ∧
    2 < [[1, 2], [1], [4, 3]].length ∧
    ∃ R r c, AllCombinations (space [[1, 2], [1], [4, 3]]) = some R ∧ R.get? 3 = some r ∧
      ([[1, 2], [1], [4, 3]].getD 2 []).get? (odometerDigit [[1, 2], [1], [4, 3]] 3 2) = some c ∧
      math.CT.get r 2 = some c :=
  ⟨by decide, by decide, by decide,
    C15_odometer [[1, 2], [1], [4, 3]] (by decide) 3 (by decide) 2 (by decide)⟩

/-! ## Theorems about `MapTuple` -/

namespace math

theorem static_cast_toAligned {V : Type} (self : MapTuple (NativeData V))
    (T_Pair : bmpl.Ty × bmpl.Ty) :
    self.toAligned.static_cast T_Pair = self.static_cast T_Pair := by
  simp only [MapTuple.static_cast, MapTuple.toAligned, List.findIdx?_map]
  rfl

theorem op_index_toAligned {V : Type} (T_Map : bmpl.map) (self : MapTuple (NativeData V))
    (T_Key : bmpl.Ty) : self.toAligned.op_index T_Map T_Key = self.op_index T_Map T_Key := by
  simp only [MapTuple.op_index, static_cast_toAligned]
  cases self.static_cast (T_Key, bmpl.at_ T_Map T_Key) with
  | none => rfl
  | some i =>
    simp only [MapTuple.toAligned, List.get?_eq_getElem?, List.getElem?_map]
    cases self.Base[i]? with
    | none => rfl
    | some b => rfl

theorem op_index_assign_toAligned {V : Type} (T_Map : bmpl.map) (self : MapTuple (NativeData V))
    (T_Key : bmpl.Ty) (v : V) :
    self.toAligned.op_index_assign T_Map T_Key v =
      (self.op_index_assign T_Map T_Key v).map MapTuple.toAligned := by
  simp only [MapTuple.op_index_assign, static_cast_toAligned]
  cases self.static_cast (T_Key, bmpl.at_ T_Map T_Key) with
  | none => rfl
  | some i =>
    simp only [MapTuple.toAligned, List.get?_eq_getElem?, List.getElem?_map]
    cases self.Base[i]? with
    | none => rfl
    | some b =>
      simp only [Option.map_some', PodType.op_index_assign, NativeData.op_index_assign,
        AlignedData.op_index_assign, NativeData.toAligned, NativeData.Key, AlignedData.Key]
      by_cases hk : T_Key = b.T_Pair.1
      · simp [hk, MapTuple.toAligned, NativeData.toAligned, List.map_set]
      · simp [hk]

theorem at_toAligned {V : Type} (T_Map : bmpl.map) (self : MapTuple (NativeData V)) (T_i : Int) :
    self.toAligned.at_ T_Map T_i = self.at_ T_Map T_i := by
  simp only [MapTuple.at_]
  cases (bmpl.at_ T_Map (bmpl.Ty.int_ T_i)).first with
  | none => rfl
  | some key => exact op_index_toAligned T_Map self key

theorem at_assign_toAligned {V : Type} (T_Map : bmpl.map) (self : MapTuple (NativeData V))
    (T_i : Int) (v : V) :
    self.toAligned.at_assign T_Map T_i v =
      (self.at_assign T_Map T_i v).map MapTuple.toAligned := by
  simp only [MapTuple.at_assign]
  cases (bmpl.at_ T_Map (bmpl.Ty.int_ T_i)).first with
  | none => rfl
  | some key => exact op_index_assign_toAligned T_Map self key v

theorem construct_toAligned {V : Type} (T_Map : bmpl.map) (init : bmpl.Ty × bmpl.Ty → V) :
    (MapTuple.construct T_Map init : MapTuple (NativeData V)).toAligned =
      MapTuple.construct T_Map init := by
  simp only [MapTuple.toAligned, MapTuple.construct, InheritLinearly, List.map_map]
  rfl

theorem run_toAligned {V : Type} (T_Map : bmpl.map) (self : MapTuple (NativeData V))
    (accesses : List (Access V)) :
    MapTuple.run T_Map self.toAligned accesses = MapTuple.run T_Map self accesses := by
  induction accesses generalizing self with
  | nil => rfl
  | cons a rest ih =>
    cases a with
    | write_key key v =>
      simp only [MapTuple.run, op_index_assign_toAligned]
      cases self.op_index_assign T_Map key v with
      | none => simp [ih]
      | some next => simp [ih]
    | write_pos i v =>
      simp only [MapTuple.run, at_assign_toAligned]
      cases self.at_assign T_Map i v with
      | none => simp [ih]
      | some next => simp [ih]
    | read_key key =>
      simp only [MapTuple.run, op_index_toAligned]
      cases self.op_index T_Map key with
      | none => simp [ih]
      | some x => simp [ih]
    | read_pos i =>
      simp only [MapTuple.run, at_toAligned]
      cases self.at_ T_Map i with
      | none => simp [ih]
      | some x => simp [ih]

theorem findIdx?_get? {β : Type} (l : List β) (p : β → Bool) :
    (match l.findIdx? p with
      | none => none
      | some i => l.get? i) = l.find? p := by
  induction l with
  | nil => rfl
  | cons x xs ih =>
    rw [List.findIdx?_cons, List.find?_cons]
    cases hx : p x with
    | true => simp
    | false =>
      simp only [Bool.false_eq_true, if_false, Nat.zero_add, List.findIdx?_succ]
      rw [← ih]
      cases xs.findIdx? p with
      | none => rfl
      | some i => simp

theorem at_mem {T_Map : bmpl.map} {key : bmpl.Ty} (h : key ∈ T_Map.map Prod.fst) :
    (key, bmpl.at_ T_Map key) ∈ T_Map := by
  obtain ⟨e, he, rfl⟩ := List.mem_map.mp h
  unfold bmpl.at_
  cases hf : T_Map.find? (fun x => decide (x.1 = e.1)) with
  | none =>
    have := List.find?_eq_none.mp hf e he
    simp at this
  | some x =>
    have h1 := List.find?_some hf
    have h2 := List.mem_of_find?_eq_some hf
    simp only [decide_eq_true_eq] at h1
    rw [← h1]
    exact h2

theorem find?_decide_eq {β : Type} [DecidableEq β] (l : List β) (x : β) :
    l.find? (fun e => decide (e = x)) = if x ∈ l then some x else none := by
  induction l with
  | nil => rfl
  | cons y ys ih =>
    rw [List.find?_cons]
    by_cases hy : y = x
    · simp [hy]
    · have hxy : ¬ x = y := fun h => hy h.symm
      simp [hy, hxy, ih]

theorem op_index_eq_find {V : Type} (T_Map : bmpl.map) (self : MapTuple (NativeData V))
    (key : bmpl.Ty) :
    self.op_index T_Map key =
      (self.Base.find? (fun b => decide (b.T_Pair = (key, bmpl.at_ T_Map key)))).bind
        (fun b => b.op_index key) := by
  rw [← findIdx?_get?]
  unfold MapTuple.op_index MapTuple.static_cast
  simp only [PodType.T_Pair, PodType.op_index]
  cases self.Base.findIdx? (fun b => decide (b.T_Pair = (key, bmpl.at_ T_Map key))) with
  | none => rfl
  | some i =>
    simp only
    cases self.Base.get? i with
    | none => rfl
    | some b => rfl

theorem op_index_construct {V : Type} (T_Map : bmpl.map) (init : bmpl.Ty × bmpl.Ty → V)
    (key : bmpl.Ty) :
    (MapTuple.construct T_Map init : MapTuple (NativeData V)).op_index T_Map key =
      if (key, bmpl.at_ T_Map key) ∈ T_Map then some (init (key, bmpl.at_ T_Map key))
      else none := by
  have hcomp : ((fun b : NativeData V => decide (b.T_Pair = (key, bmpl.at_ T_Map key))) ∘
      fun e => (PodType.ctor e (init e) : NativeData V)) =
      fun e => decide (e = (key, bmpl.at_ T_Map key)) := rfl
  rw [op_index_eq_find]
  simp only [MapTuple.construct, InheritLinearly, List.find?_map, hcomp, find?_decide_eq]
  by_cases hmem : (key, bmpl.at_ T_Map key) ∈ T_Map
  · simp only [hmem, if_true, Option.map_some', Option.some_bind]
    simp [PodType.ctor, NativeData.ctor, NativeData.op_index, NativeData.Key]
  · simp [hmem]

theorem op_index_construct_isSome {V : Type} (T_Map : bmpl.map)
    (init : bmpl.Ty × bmpl.Ty → V) (key : bmpl.Ty) :
    ((MapTuple.construct T_Map init : MapTuple (NativeData V)).op_index T_Map key).isSome = true
      ↔ key ∈ T_Map.map Prod.fst := by
  rw [op_index_construct]
  constructor
  · intro h
    by_cases hmem : (key, bmpl.at_ T_Map key) ∈ T_Map
    · exact List.mem_map.mpr ⟨_, hmem, rfl⟩
    · simp [hmem] at h
  · intro h
    simp [at_mem h]

/-- C5: in the schema of the two keys `cls 0` and `cls 1`, position `0` lies in `[0, dim)` and
`operator[]` with the key at position `0` reads the slot of that key, but `at<0>()` looks the
key `bmpl::int_<0>` up in the map, finds `bmpl::void_`, which has no `first`, and resolves to
no slot. -/
theorem C5_at_is_not_slot_of_key :
    (0 : Int) < MapTuple.dim [(bmpl.Ty.cls 0, bmpl.Ty.cls 100), (bmpl.Ty.cls 1, bmpl.Ty.cls 101)] ∧
    (MapTuple.construct [(bmpl.Ty.cls 0, bmpl.Ty.cls 100), (bmpl.Ty.cls 1, bmpl.Ty.cls 101)]
        (fun e => if e.1 = bmpl.Ty.cls 0 then 10 else 20) : MapTuple (NativeData Nat)).op_index
      [(bmpl.Ty.cls 0, bmpl.Ty.cls 100), (bmpl.Ty.cls 1, bmpl.Ty.cls 101)] (bmpl.Ty.cls 0) =
        some 10 ∧
    (MapTuple.construct [(bmpl.Ty.cls 0, bmpl.Ty.cls 100), (bmpl.Ty.cls 1, bmpl.Ty.cls 101)]
        (fun e => if e.1 = bmpl.Ty.cls 0 then 10 else 20) : MapTuple (NativeData Nat)).at_
      [(bmpl.Ty.cls 0, bmpl.Ty.cls 100), (bmpl.Ty.cls 1, bmpl.Ty.cls 101)] 0 = none := by
  decide

/-- C6: in the schema of the two keys `cls 0` and `cls 1`, after the write of `7` through
`operator[]` with the key at position `0`, `at<0>()` yields no value, and the write of `7`
through `at<0>()` is rejected; this is so for `NativeData` and for `AlignedData`. -/
theorem C6_cross_accessor_round_trip_fails :
    (((MapTuple.construct [(bmpl.Ty.cls 0, bmpl.Ty.cls 100), (bmpl.Ty.cls 1, bmpl.Ty.cls 101)]
        (fun _ => 0) : MapTuple (NativeData Nat)).op_index_assign
      [(bmpl.Ty.cls 0, bmpl.Ty.cls 100), (bmpl.Ty.cls 1, bmpl.Ty.cls 101)]
      (bmpl.Ty.cls 0) 7).map
        (fun t => t.at_ [(bmpl.Ty.cls 0, bmpl.Ty.cls 100), (bmpl.Ty.cls 1, bmpl.Ty.cls 101)] 0) =
      some none) ∧
    ((MapTuple.construct [(bmpl.Ty.cls 0, bmpl.Ty.cls 100), (bmpl.Ty.cls 1, bmpl.Ty.cls 101)]
        (fun _ => 0) : MapTuple (NativeData Nat)).at_assign
      [(bmpl.Ty.cls 0, bmpl.Ty.cls 100), (bmpl.Ty.cls 1, bmpl.Ty.cls 101)] 0 7 = none) ∧
    (((MapTuple.construct [(bmpl.Ty.cls 0, bmpl.Ty.cls 100), (bmpl.Ty.cls 1, bmpl.Ty.cls 101)]
        (fun _ => 0) : MapTuple (AlignedData Nat)).op_index_assign
      [(bmpl.Ty.cls 0, bmpl.Ty.cls 100), (bmpl.Ty.cls 1, bmpl.Ty.cls 101)]
      (bmpl.Ty.cls 0) 7).map
        (fun t => t.at_ [(bmpl.Ty.cls 0, bmpl.Ty.cls 100), (bmpl.Ty.cls 1, bmpl.Ty.cls 101)] 0) =
      some none) ∧
    ((MapTuple.construct [(bmpl.Ty.cls 0, bmpl.Ty.cls 100), (bmpl.Ty.cls 1, bmpl.Ty.cls 101)]
        (fun _ => 0) : MapTuple (AlignedData Nat)).at_assign
      [(bmpl.Ty.cls 0, bmpl.Ty.cls 100), (bmpl.Ty.cls 1, bmpl.Ty.cls 101)] 0 7 = none) := by
  decide

/-- C9 (layout interchangeability): for every schema, every initial content and every
sequence of writes and reads by key or by position, a `MapTuple<Map, NativeData>` and a
`MapTuple<Map, AlignedData>` constructed alike show the same thing at every access: the same
value at every read and the same outcome at every write. -/
theorem C9_layout_interchangeable {V : Type} (T_Map : bmpl.map) (init : bmpl.Ty × bmpl.Ty → V)
    (accesses : List (Access V)) :
    MapTuple.run T_Map (MapTuple.construct T_Map init : MapTuple (NativeData V)) accesses =
      MapTuple.run T_Map (MapTuple.construct T_Map init : MapTuple (AlignedData V)) accesses := by
  rw [← construct_toAligned, run_toAligned]

/-- C10: `operator[]` resolves to a slot exactly for the keys of the schema, but in the schema
of the two keys `cls 0` and `cls 1`, where `dim` is `2`, `at<0>()` and `at<1>()` resolve to no
slot although both positions lie in `[0, dim)`. -/
theorem C10_selectors {V : Type} :
    (∀ (T_Map : bmpl.map) (init : bmpl.Ty × bmpl.Ty → V) (key : bmpl.Ty),
      ((MapTuple.construct T_Map init : MapTuple (NativeData V)).op_index T_Map key).isSome = true
        ↔ key ∈ T_Map.map Prod.fst) ∧
    MapTuple.dim [(bmpl.Ty.cls 0, bmpl.Ty.cls 100), (bmpl.Ty.cls 1, bmpl.Ty.cls 101)] = 2 ∧
    (MapTuple.construct [(bmpl.Ty.cls 0, bmpl.Ty.cls 100), (bmpl.Ty.cls 1, bmpl.Ty.cls 101)]
        (fun _ => 0) : MapTuple (NativeData Nat)).at_
      [(bmpl.Ty.cls 0, bmpl.Ty.cls 100), (bmpl.Ty.cls 1, bmpl.Ty.cls 101)] 0 = none ∧
    (MapTuple.construct [(bmpl.Ty.cls 0, bmpl.Ty.cls 100), (bmpl.Ty.cls 1, bmpl.Ty.cls 101)]
        (fun _ => 0) : MapTuple (NativeData Nat)).at_
      [(bmpl.Ty.cls 0, bmpl.Ty.cls 100), (bmpl.Ty.cls 1, bmpl.Ty.cls 101)] 1 = none :=
  ⟨op_index_construct_isSome, by decide, by decide, by decide⟩

/-- C11: for every schema, `MapTuple::dim` is the number of entries of the schema; it is a
function of the schema alone, and a tuple of either slot policy has that many slots whatever
its contents. -/
theorem C11_dim_is_schema_length {V : Type} (T_Map : bmpl.map) (init : bmpl.Ty × bmpl.Ty → V) :
    MapTuple.dim T_Map = (T_Map.length : Int) ∧
      (((MapTuple.construct T_Map init : MapTuple (NativeData V)).Base.length : Nat) : Int) =
        MapTuple.dim T_Map ∧
      (((MapTuple.construct T_Map init : MapTuple (AlignedData V)).Base.length : Nat) : Int) =
        MapTuple.dim T_Map := by
  simp [MapTuple.dim, bmpl.size, MapTuple.construct, InheritLinearly]

/-- C16 (per-slot single-value construction): a slot constructed from the value `v`, be it
`NativeData(v)` or `AlignedData(v)`, returns `v` when read through `operator[]` with the key
of the slot. -/
theorem C16_slot_constructed_from_value {V : Type} (T_Pair : bmpl.Ty × bmpl.Ty) (v : V) :
    (NativeData.ctor T_Pair v).op_index (NativeData.ctor T_Pair v).Key = some v ∧
      (AlignedData.ctor T_Pair v).op_index (AlignedData.ctor T_Pair v).Key = some v ∧
      (NativeData.ctor T_Pair v).Key = T_Pair.1 ∧ (AlignedData.ctor T_Pair v).Key = T_Pair.1 := by
  simp [NativeData.op_index, NativeData.ctor, NativeData.Key, AlignedData.op_index,
    AlignedData.ctor, AlignedData.Key]

theorem findIdx?_set_of_eq {β : Type} (l : List β) (p : β → Bool) (i : Nat) (b b2 : β)
    (hb : l.get? i = some b) (hp : p b2 = p b) : (l.set i b2).findIdx? p = l.findIdx? p := by
  induction l generalizing i with
  | nil => rfl
  | cons x xs ih =>
    cases i with
    | zero =>
      simp only [List.get?_cons_zero, Option.some.injEq] at hb
      subst hb
      simp [List.findIdx?_cons, hp]
    | succ i =>
      simp only [List.get?_cons_succ] at hb
      simp only [List.set_cons_succ, List.findIdx?_cons, Nat.zero_add, List.findIdx?_succ,
        ih i hb]

theorem op_index_assign_inv {V : Type} (T_Map : bmpl.map) (self t2 : MapTuple (NativeData V))
    (k : bmpl.Ty) (v : V) (hw : self.op_index_assign T_Map k v = some t2) :
    ∃ i b, self.static_cast (k, bmpl.at_ T_Map k) = some i ∧ self.Base.get? i = some b ∧
      b.T_Pair.1 = k ∧ t2.Base = self.Base.set i { T_Pair := b.T_Pair, value := v } := by
  unfold MapTuple.op_index_assign at hw
  cases hi : self.static_cast (k, bmpl.at_ T_Map k) with
  | none => rw [hi] at hw; exact absurd hw (by simp)
  | some i =>
    simp only [hi] at hw
    cases hb : self.Base.get? i with
    | none => rw [hb] at hw; exact absurd hw (by simp)
    | some b =>
      rw [hb] at hw
      simp only [PodType.op_index_assign, NativeData.op_index_assign, NativeData.Key] at hw
      by_cases hk : k = b.T_Pair.1
      · simp only [hk, if_true, Option.some.injEq] at hw
        exact ⟨i, b, rfl, hb, hk.symm, by rw [← hw]⟩
      · simp [hk] at hw

theorem static_cast_after_assign {V : Type} (T_Map : bmpl.map)
    (self t2 : MapTuple (NativeData V)) (k : bmpl.Ty) (v : V)
    (hw : self.op_index_assign T_Map k v = some t2) (T_Pair : bmpl.Ty × bmpl.Ty) :
    t2.static_cast T_Pair = self.static_cast T_Pair := by
  obtain ⟨i, b, _, hb, _, ht2⟩ := op_index_assign_inv T_Map self t2 k v hw
  unfold MapTuple.static_cast
  rw [ht2]
  exact findIdx?_set_of_eq self.Base _ i b _ hb rfl

theorem op_index_after_assign_same {V : Type} (T_Map : bmpl.map)
    (self t2 : MapTuple (NativeData V)) (k : bmpl.Ty) (v : V)
    (hw : self.op_index_assign T_Map k v = some t2) : t2.op_index T_Map k = some v := by
  obtain ⟨i, b, hi, hb, hk, ht2⟩ := op_index_assign_inv T_Map self t2 k v hw
  have hlt : i < self.Base.length := by
    rw [List.get?_eq_getElem?] at hb
    exact (List.getElem?_eq_some.mp hb).1
  unfold MapTuple.op_index
  rw [static_cast_after_assign T_Map self t2 k v hw, hi]
  simp [ht2, List.getElem?_set, hlt, PodType.op_index, NativeData.op_index, NativeData.Key, hk]

theorem op_index_after_assign_other {V : Type} (T_Map : bmpl.map)
    (self t2 : MapTuple (NativeData V)) (k k2 : bmpl.Ty) (v : V)
    (hw : self.op_index_assign T_Map k v = some t2) (hne : k2 ≠ k) :
    t2.op_index T_Map k2 = self.op_index T_Map k2 := by
  obtain ⟨i, b, hi, hb, hk, ht2⟩ := op_index_assign_inv T_Map self t2 k v hw
  have hlt : i < self.Base.length := by
    rw [List.get?_eq_getElem?] at hb
    exact (List.getElem?_eq_some.mp hb).1
  unfold MapTuple.op_index
  rw [static_cast_after_assign T_Map self t2 k v hw]
  cases self.static_cast (k2, bmpl.at_ T_Map k2) with
  | none => rfl
  | some j =>
    simp only [ht2, List.get?_eq_getElem?, List.getElem?_set]
    by_cases hij : i = j
    · subst hij
      rw [List.get?_eq_getElem?] at hb
      simp [hlt, hb, PodType.op_index, NativeData.op_index, NativeData.Key, hk, hne]
    · simp [hij]

theorem op_index_assign_accepts {V : Type} (T_Map : bmpl.map) (self : MapTuple (NativeData V))
    (hwf : self.Base.map NativeData.T_Pair = T_Map) (k : bmpl.Ty)
    (hk : k ∈ T_Map.map Prod.fst) (v : V) :
    ∃ t2, self.op_index_assign T_Map k v = some t2 := by
  have hmem : (k, bmpl.at_ T_Map k) ∈ self.Base.map NativeData.T_Pair := by
    rw [hwf]; exact at_mem hk
  obtain ⟨b0, hb0, hb0p⟩ := List.mem_map.mp hmem
  unfold MapTuple.op_index_assign
  cases hi : self.static_cast (k, bmpl.at_ T_Map k) with
  | none =>
    unfold MapTuple.static_cast at hi
    have := List.findIdx?_eq_none_iff.mp hi b0 hb0
    simp [PodType.T_Pair, hb0p] at this
  | some i =>
    unfold MapTuple.static_cast at hi
    obtain ⟨hlt, hp, _⟩ := List.findIdx?_eq_some_iff_getElem.mp hi
    simp only [PodType.T_Pair, decide_eq_true_eq] at hp
    have hget : self.Base.get? i = some (self.Base.get ⟨i, hlt⟩) := List.get?_eq_get hlt
    have hkey : k = (self.Base.get ⟨i, hlt⟩).T_Pair.1 := by
      rw [List.get_eq_getElem, hp]
    simp only [hget, PodType.op_index_assign, NativeData.op_index_assign, NativeData.Key]
    rw [if_pos hkey]
    exact ⟨_, rfl⟩

/-- C17: a write through `operator[]` with a key `k` of the schema is accepted, stores `v` in
the slot of `k` and leaves what every other key reads as it was. A write through `at<i>()` is
rejected in the schema of the keys `cls 0`, `cls 1`; and in the schema that maps the key
`bmpl::int_<0>` to `bmpl::pair<cls 1, void_>` the write through `at<0>()` lands in the slot
of `cls 1`, which is not the key at position `0`, and changes what `cls 1` reads. -/
theorem C17_frame_of_writes :
    (∀ (V : Type) (T_Map : bmpl.map) (self : MapTuple (NativeData V)) (k : bmpl.Ty) (v : V),
      self.Base.map NativeData.T_Pair = T_Map → k ∈ T_Map.map Prod.fst →
        ∃ t2, self.op_index_assign T_Map k v = some t2 ∧ t2.op_index T_Map k = some v ∧
          ∀ k2, k2 ≠ k → t2.op_index T_Map k2 = self.op_index T_Map k2) ∧
    ((MapTuple.construct [(bmpl.Ty.cls 0, bmpl.Ty.cls 100), (bmpl.Ty.cls 1, bmpl.Ty.cls 101)]
        (fun _ => 0) : MapTuple (NativeData Nat)).at_assign
      [(bmpl.Ty.cls 0, bmpl.Ty.cls 100), (bmpl.Ty.cls 1, bmpl.Ty.cls 101)] 0 7 = none) ∧
    ((MapTuple.construct
        [(bmpl.Ty.int_ 0, bmpl.Ty.pair (bmpl.Ty.cls 1) bmpl.Ty.void_),
          (bmpl.Ty.cls 1, bmpl.Ty.cls 101)]
        (fun _ => 0) : MapTuple (NativeData Nat)).op_index
      [(bmpl.Ty.int_ 0, bmpl.Ty.pair (bmpl.Ty.cls 1) bmpl.Ty.void_),
        (bmpl.Ty.cls 1, bmpl.Ty.cls 101)] (bmpl.Ty.cls 1) = some 0) ∧
    (((MapTuple.construct
        [(bmpl.Ty.int_ 0, bmpl.Ty.pair (bmpl.Ty.cls 1) bmpl.Ty.void_),
          (bmpl.Ty.cls 1, bmpl.Ty.cls 101)]
        (fun _ => 0) : MapTuple (NativeData Nat)).at_assign
      [(bmpl.Ty.int_ 0, bmpl.Ty.pair (bmpl.Ty.cls 1) bmpl.Ty.void_),
        (bmpl.Ty.cls 1, bmpl.Ty.cls 101)] 0 7).bind
        (fun t2 => t2.op_index
          [(bmpl.Ty.int_ 0, bmpl.Ty.pair (bmpl.Ty.cls 1) bmpl.Ty.void_),
            (bmpl.Ty.cls 1, bmpl.Ty.cls 101)] (bmpl.Ty.cls 1)) = some 7) := by
  refine ⟨?_, by decide, by decide, by decide⟩
  intro V T_Map self k v hwf hk
  obtain ⟨t2, ht2⟩ := op_index_assign_accepts T_Map self hwf k hk v
  exact ⟨t2, ht2, op_index_after_assign_same T_Map self t2 k v ht2,
    fun k2 hne => op_index_after_assign_other T_Map self t2 k k2 v ht2 hne⟩

end math

end pmacc
